import Mathlib

/-!
Verification of the BlockTalk messenger.

Embedded here: the on-ledger state machine of BlockTalkMessenger.sol
(key registry, sendMessage, getMessage, permanent storage) and the
client-side code of encryption.ts and contract.ts (key derivation,
AES-GCM message encryption, conversation hashing, hex key handling).

Machine integers are modelled as Nat (addresses are uint160 values,
bytes32 values are Nat below 2 ^ 256); byte strings are List Nat;
keccak256 and the WebCrypto primitives are abstract parameters, since
every property proved here is independent of the concrete hash or
cipher.
-/

/-- Value of a big-endian digit list in radix B. -/
def radixVal (B : Nat) (l : List Nat) : Nat :=
  l.foldl (fun a d => B * a + d) 0

/-- Big-endian digits of n in radix B, exactly k digits, most significant
first; models abi.encodePacked of fixed-width integers (B = 256) and hex
rendering (B = 16). -/
def beDigits (B k n : Nat) : List Nat :=
  match k with
  | 0 => []
  | k + 1 => beDigits B k (n / B) ++ [n % B]

theorem radixVal_nil (B : Nat) : radixVal B [] = 0 := rfl

theorem foldl_radix (B : Nat) (l : List Nat) :
    ∀ a : Nat, l.foldl (fun a d => B * a + d) a = a * B ^ l.length + radixVal B l := by
  induction l with
  | nil => intro a; simp [radixVal]
  | cons d l ih =>
    intro a
    have h1 := ih (B * a + d)
    have h2 := ih d
    simp only [List.foldl_cons, List.length_cons]
    rw [h1]
    have hdl : radixVal B (d :: l) = d * B ^ l.length + radixVal B l := by
      simp only [radixVal, List.foldl_cons]
      have := ih d
      simpa [radixVal] using this
    rw [hdl]
    ring

theorem radixVal_cons (B d : Nat) (l : List Nat) :
    radixVal B (d :: l) = d * B ^ l.length + radixVal B l := by
  simp only [radixVal, List.foldl_cons]
  simpa [radixVal] using foldl_radix B l d

theorem radixVal_append_singleton (B : Nat) (l : List Nat) (d : Nat) :
    radixVal B (l ++ [d]) = B * radixVal B l + d := by
  simp [radixVal, List.foldl_append]

theorem radixVal_lt (B : Nat) (l : List Nat) (_hB : 0 < B)
    (h : ∀ d ∈ l, d < B) : radixVal B l < B ^ l.length := by
  induction l with
  | nil => simp [radixVal]
  | cons d l ih =>
    have hd : d < B := h d (by simp)
    have hl : radixVal B l < B ^ l.length := ih (fun x hx => h x (by simp [hx]))
    rw [radixVal_cons, List.length_cons]
    calc d * B ^ l.length + radixVal B l
        < d * B ^ l.length + B ^ l.length := Nat.add_lt_add_left hl _
      _ = (d + 1) * B ^ l.length := by ring
      _ ≤ B * B ^ l.length := Nat.mul_le_mul_right _ (Nat.succ_le_of_lt hd)
      _ = B ^ (l.length + 1) := by rw [pow_succ]; ring

theorem radixVal_replicate_zero (B k : Nat) :
    radixVal B (List.replicate k 0) = 0 := by
  induction k with
  | zero => rfl
  | succ k ih => rw [List.replicate_succ, radixVal_cons, ih]; simp

theorem beDigits_length (B k : Nat) : ∀ n, (beDigits B k n).length = k := by
  induction k with
  | zero => intro n; rfl
  | succ k ih => intro n; simp [beDigits, ih]

theorem beDigits_lt (B k : Nat) (hB : 0 < B) :
    ∀ n, ∀ d ∈ beDigits B k n, d < B := by
  induction k with
  | zero => intro n d hd; simp [beDigits] at hd
  | succ k ih =>
    intro n d hd
    simp only [beDigits, List.mem_append, List.mem_singleton] at hd
    rcases hd with hd | hd
    · exact ih (n / B) d hd
    · subst hd; exact Nat.mod_lt _ hB

theorem radixVal_beDigits (B k : Nat) (hB : 0 < B) :
    ∀ n, radixVal B (beDigits B k n) = n % B ^ k := by
  induction k with
  | zero => intro n; simp [beDigits, radixVal, Nat.mod_one]
  | succ k ih =>
    intro n
    rw [beDigits, radixVal_append_singleton, ih (n / B)]
    have hsplit : n % B ^ (k + 1) = B * (n / B % B ^ k) + n % B := by
      have h1 : n = B * (n / B) + n % B := (Nat.div_add_mod n B).symm
      have h2 : n / B = B ^ k * (n / B / B ^ k) + n / B % B ^ k :=
        (Nat.div_add_mod (n / B) (B ^ k)).symm
      have hlt : B * (n / B % B ^ k) + n % B < B ^ (k + 1) := by
        have ha : n / B % B ^ k < B ^ k := Nat.mod_lt _ (Nat.pos_pow_of_pos k hB)
        have hb : n % B < B := Nat.mod_lt _ hB
        calc B * (n / B % B ^ k) + n % B
            < B * (n / B % B ^ k) + B := Nat.add_lt_add_left hb _
          _ = B * (n / B % B ^ k + 1) := by ring
          _ ≤ B * B ^ k := Nat.mul_le_mul_left _ (Nat.succ_le_of_lt ha)
          _ = B ^ (k + 1) := by rw [pow_succ]; ring
      have hn : n = B ^ (k + 1) * (n / B / B ^ k) + (B * (n / B % B ^ k) + n % B) := by
        calc n = B * (n / B) + n % B := h1
          _ = B * (B ^ k * (n / B / B ^ k) + n / B % B ^ k) + n % B := by rw [← h2]
          _ = B ^ (k + 1) * (n / B / B ^ k) + (B * (n / B % B ^ k) + n % B) := by
              rw [pow_succ]; ring
      conv_lhs => rw [hn]
      rw [Nat.mul_add_mod]
      exact Nat.mod_eq_of_lt hlt
    omega

theorem beDigits_zero (B k : Nat) : beDigits B k 0 = List.replicate k 0 := by
  induction k with
  | zero => rfl
  | succ k ih =>
    rw [beDigits, Nat.zero_div, Nat.zero_mod, ih]
    rw [← List.replicate_succ' (n := k)]

/-- Positional comparison of one leading digit against the rest. -/
theorem digit_pos_lt {P x y v w : Nat} (hv : v < P) (hw : w < P) :
    x * P + v < y * P + w ↔ x < y ∨ (x = y ∧ v < w) := by
  constructor
  · intro h
    rcases Nat.lt_trichotomy x y with h' | h' | h'
    · exact Or.inl h'
    · subst h'; exact Or.inr ⟨rfl, Nat.lt_of_add_lt_add_left h⟩
    · exfalso
      have : y * P + w < x * P + v := by
        calc y * P + w < y * P + P := Nat.add_lt_add_left hw _
          _ = (y + 1) * P := by ring
          _ ≤ x * P := Nat.mul_le_mul_right _ (Nat.succ_le_of_lt h')
          _ ≤ x * P + v := Nat.le_add_right _ _
      omega
  · intro h
    rcases h with h | ⟨rfl, h⟩
    · calc x * P + v < x * P + P := Nat.add_lt_add_left hv _
        _ = (x + 1) * P := by ring
        _ ≤ y * P := Nat.mul_le_mul_right _ (Nat.succ_le_of_lt h)
        _ ≤ y * P + w := Nat.le_add_right _ _
    · exact Nat.add_lt_add_left h _

/-- ASCII lowercasing of one character, as String.prototype.toLowerCase acts
on the hex-address alphabet. -/
def toLowerChar (c : Char) : Char :=
  if 65 ≤ c.toNat ∧ c.toNat ≤ 90 then Char.ofNat (c.toNat + 32) else c

/-- Numeric value of a lowercase hex digit character, as parseInt base 16
and viem's hex parsing read it. -/
def hexVal (c : Char) : Nat :=
  if c.toNat ≤ 57 then c.toNat - 48 else c.toNat - 87

/-- The character is a lowercase hexadecimal digit. -/
def IsLowerHex (c : Char) : Prop :=
  (48 ≤ c.toNat ∧ c.toNat ≤ 57) ∨ (97 ≤ c.toNat ∧ c.toNat ≤ 102)

instance (c : Char) : Decidable (IsLowerHex c) := by
  unfold IsLowerHex; infer_instance

/-- JavaScript string comparison (code-unit lexicographic order), on the
character lists of the two strings. -/
def jsLt : List Char → List Char → Bool
  | [], [] => false
  | [], _ :: _ => true
  | _ :: _, [] => false
  | c :: cs, d :: ds =>
    if c.toNat < d.toNat then true
    else if d.toNat < c.toNat then false
    else jsLt cs ds

/-- Packing a list of hex nibbles into bytes, two nibbles per byte, as
viem's hex-to-bytes conversion inside encodePacked. -/
def nibblesToBytes : List Nat → List Nat
  | n1 :: n2 :: rest => (16 * n1 + n2) :: nibblesToBytes rest
  | _ => []

theorem hexVal_lt_16 {c : Char} (hc : IsLowerHex c) : hexVal c < 16 := by
  rcases hc with ⟨h1, h2⟩ | ⟨h1, h2⟩ <;> unfold hexVal <;> split_ifs <;> omega

theorem hexVal_lt_iff {c d : Char} (hc : IsLowerHex c) (hd : IsLowerHex d) :
    hexVal c < hexVal d ↔ c.toNat < d.toNat := by
  rcases hc with ⟨h1, h2⟩ | ⟨h1, h2⟩ <;> rcases hd with ⟨h3, h4⟩ | ⟨h3, h4⟩ <;>
    unfold hexVal <;> split_ifs <;> omega

theorem hexVal_eq_iff {c d : Char} (hc : IsLowerHex c) (hd : IsLowerHex d) :
    hexVal c = hexVal d ↔ c.toNat = d.toNat := by
  rcases hc with ⟨h1, h2⟩ | ⟨h1, h2⟩ <;> rcases hd with ⟨h3, h4⟩ | ⟨h3, h4⟩ <;>
    unfold hexVal <;> split_ifs <;> omega

theorem char_eq_of_toNat_eq {c d : Char} (h : c.toNat = d.toNat) : c = d :=
  Char.ext (UInt32.ext h)

theorem jsLt_cons_same (c : Char) (l m : List Char) :
    jsLt (c :: l) (c :: m) = jsLt l m := by
  simp [jsLt]

theorem jsLt_asymm : ∀ l m : List Char, jsLt l m = true → jsLt m l = false
  | [], [], h => by simp [jsLt] at h
  | [], _ :: _, _ => rfl
  | _ :: _, [], h => by simp [jsLt] at h
  | c :: cs, d :: ds, h => by
    simp only [jsLt] at h ⊢
    rcases Nat.lt_trichotomy c.toNat d.toNat with hlt | heq | hgt
    · rw [if_neg (by omega), if_pos hlt]
    · rw [if_neg (by omega), if_neg (by omega)] at h
      rw [if_neg (by omega), if_neg (by omega)]
      exact jsLt_asymm cs ds h
    · rw [if_neg (by omega), if_pos hgt] at h
      exact absurd h (by simp)

theorem jsLt_eq_of_not : ∀ l m : List Char,
    jsLt l m = false → jsLt m l = false → l = m
  | [], [], _, _ => rfl
  | [], _ :: _, h, _ => by simp [jsLt] at h
  | _ :: _, [], _, h => by simp [jsLt] at h
  | c :: cs, d :: ds, h1, h2 => by
    simp only [jsLt] at h1 h2
    rcases Nat.lt_trichotomy c.toNat d.toNat with hlt | heq | hgt
    · rw [if_pos hlt] at h1; exact absurd h1 (by simp)
    · rw [if_neg (by omega), if_neg (by omega)] at h1
      rw [if_neg (by omega), if_neg (by omega)] at h2
      have hcd : c = d := char_eq_of_toNat_eq heq
      rw [hcd, jsLt_eq_of_not cs ds h1 h2]
    · rw [if_pos hgt] at h2; exact absurd h2 (by simp)

/-- On equal-length lowercase-hex strings, JavaScript string comparison
agrees with numeric comparison of the parsed values. -/
theorem jsLt_iff_lt : ∀ cs ds : List Char, cs.length = ds.length →
    (∀ c ∈ cs, IsLowerHex c) → (∀ c ∈ ds, IsLowerHex c) →
    (jsLt cs ds = true ↔ radixVal 16 (cs.map hexVal) < radixVal 16 (ds.map hexVal))
  | [], [], _, _, _ => by simp [jsLt, radixVal]
  | [], d :: ds, hlen, _, _ => by simp at hlen
  | c :: cs, [], hlen, _, _ => by simp at hlen
  | c :: cs, d :: ds, hlen, hc, hd => by
    have hlen' : cs.length = ds.length := by simpa using hlen
    have hch : IsLowerHex c := hc c (by simp)
    have hdh : IsLowerHex d := hd d (by simp)
    have hcs : ∀ x ∈ cs, IsLowerHex x := fun x hx => hc x (by simp [hx])
    have hds : ∀ x ∈ ds, IsLowerHex x := fun x hx => hd x (by simp [hx])
    have hvc : radixVal 16 (cs.map hexVal) < 16 ^ cs.length := by
      have := radixVal_lt 16 (cs.map hexVal) (by norm_num)
        (fun x hx => by
          rcases List.mem_map.mp hx with ⟨y, hy, rfl⟩
          exact hexVal_lt_16 (hcs y hy))
      simpa using this
    have hvd : radixVal 16 (ds.map hexVal) < 16 ^ ds.length := by
      have := radixVal_lt 16 (ds.map hexVal) (by norm_num)
        (fun x hx => by
          rcases List.mem_map.mp hx with ⟨y, hy, rfl⟩
          exact hexVal_lt_16 (hds y hy))
      simpa using this
    have hveq : radixVal 16 ((c :: cs).map hexVal) =
        hexVal c * 16 ^ cs.length + radixVal 16 (cs.map hexVal) := by
      simp [radixVal_cons]
    have hweq : radixVal 16 ((d :: ds).map hexVal) =
        hexVal d * 16 ^ cs.length + radixVal 16 (ds.map hexVal) := by
      simp [radixVal_cons, hlen']
    rw [hveq, hweq]
    rw [digit_pos_lt hvc (hlen' ▸ hvd)]
    simp only [jsLt]
    rcases Nat.lt_trichotomy (hexVal c) (hexVal d) with hlt | heq | hgt
    · rw [if_pos ((hexVal_lt_iff hch hdh).mp hlt)]
      simp [hlt]
    · have hne1 : ¬ c.toNat < d.toNat := by
        rw [← hexVal_lt_iff hch hdh]; omega
      have hne2 : ¬ d.toNat < c.toNat := by
        rw [← hexVal_lt_iff hdh hch]; omega
      rw [if_neg hne1, if_neg hne2]
      rw [jsLt_iff_lt cs ds hlen' hcs hds]
      constructor
      · intro h; exact Or.inr ⟨heq, h⟩
      · intro h; rcases h with h | ⟨_, h⟩
        · omega
        · exact h
    · have hne1 : ¬ c.toNat < d.toNat := by
        rw [← hexVal_lt_iff hch hdh]; omega
      rw [if_neg hne1, if_pos ((hexVal_lt_iff hdh hch).mp hgt)]
      constructor
      · intro h; exact absurd h (by simp)
      · intro h; rcases h with h | ⟨h, _⟩ <;> omega

theorem nibblesToBytes_append_pair : ∀ l : List Nat, l.length % 2 = 0 →
    ∀ a b : Nat, nibblesToBytes (l ++ [a, b]) = nibblesToBytes l ++ [16 * a + b]
  | [], _, a, b => rfl
  | [x], h, a, b => by simp at h
  | x :: y :: rest, h, a, b => by
    have h' : rest.length % 2 = 0 := by
      simp only [List.length_cons] at h; omega
    simp only [List.cons_append, nibblesToBytes, List.append_eq]
    rw [nibblesToBytes_append_pair rest h' a b]

/-- Packing 2k bounded nibbles into bytes equals the k-byte big-endian
encoding of the value the nibbles denote. -/
theorem nibblesToBytes_eq_beDigits : ∀ (k : Nat) (ns : List Nat),
    ns.length = 2 * k → (∀ d ∈ ns, d < 16) →
    nibblesToBytes ns = beDigits 256 k (radixVal 16 ns)
  | 0, ns, hlen, _ => by
    have : ns = [] := List.eq_nil_of_length_eq_zero (by omega)
    subst this; rfl
  | k + 1, ns, hlen, hd => by
    rcases List.eq_nil_or_concat ns with rfl | ⟨l1, b, rfl⟩
    · simp at hlen
    · rcases List.eq_nil_or_concat l1 with rfl | ⟨l, a, rfl⟩
      · simp at hlen; omega
      · have hns : (l.concat a).concat b = l ++ [a, b] := by simp
        rw [hns] at hd ⊢
        rw [hns] at hlen
        have hlen2 : l.length = 2 * k := by
          simp only [List.length_append] at hlen
          simp at hlen
          omega
        have ha : a < 16 := hd a (by simp)
        have hb : b < 16 := hd b (by simp)
        have hl16 : ∀ d ∈ l, d < 16 := fun d hdl => hd d (by simp [hdl])
        have hbyte : 16 * a + b < 256 := by omega
        have hval : radixVal 16 (l ++ [a, b]) =
            256 * radixVal 16 l + (16 * a + b) := by
          have h2 : l ++ [a, b] = (l ++ [a]) ++ [b] := by simp
          rw [h2, radixVal_append_singleton, radixVal_append_singleton]
          ring
        rw [nibblesToBytes_append_pair l (by omega) a b, hval]
        have hdiv : (256 * radixVal 16 l + (16 * a + b)) / 256 = radixVal 16 l := by
          omega
        have hmod : (256 * radixVal 16 l + (16 * a + b)) % 256 = 16 * a + b := by
          omega
        rw [beDigits, hdiv, hmod]
        rw [nibblesToBytes_eq_beDigits k l hlen2 hl16]

/-- UTF-8 encoding of one Unicode scalar value, as TextEncoder emits it. -/
def utf8EncodeChar (c : Nat) : List Nat :=
  if c < 0x80 then [c]
  else if c < 0x800 then [0xC0 + c / 64, 0x80 + c % 64]
  else if c < 0x10000 then [0xE0 + c / 4096, 0x80 + c / 64 % 64, 0x80 + c % 64]
  else [0xF0 + c / 262144, 0x80 + c / 4096 % 64, 0x80 + c / 64 % 64, 0x80 + c % 64]

/-- UTF-8 encoding of a sequence of scalar values. -/
def utf8Encode : List Nat → List Nat
  | [] => []
  | c :: rest => utf8EncodeChar c ++ utf8Encode rest


/-- Reading one UTF-8 encoded scalar value off the front of a byte list,
as TextDecoder reads well-formed input; none on ill-formed input (where
TextDecoder would insert a replacement character instead - the two agree
wherever decoding succeeds). -/
def utf8DecodeOne : List Nat → Option (Nat × List Nat)
  | [] => none
  | b :: rest =>
    if b < 0x80 then some (b, rest)
    else if b < 0xC0 then none
    else if b < 0xE0 then
      match rest with
      | b1 :: r =>
        if 0x80 ≤ b1 ∧ b1 < 0xC0 then
          some ((b - 0xC0) * 64 + (b1 - 0x80), r)
        else none
      | [] => none
    else if b < 0xF0 then
      match rest with
      | b1 :: b2 :: r =>
        if (0x80 ≤ b1 ∧ b1 < 0xC0) ∧ (0x80 ≤ b2 ∧ b2 < 0xC0) then
          some ((b - 0xE0) * 4096 + (b1 - 0x80) * 64 + (b2 - 0x80), r)
        else none
      | _ => none
    else
      match rest with
      | b1 :: b2 :: b3 :: r =>
        if (0x80 ≤ b1 ∧ b1 < 0xC0) ∧ (0x80 ≤ b2 ∧ b2 < 0xC0) ∧
            (0x80 ≤ b3 ∧ b3 < 0xC0) then
          some ((b - 0xF0) * 262144 + (b1 - 0x80) * 4096 +
            (b2 - 0x80) * 64 + (b3 - 0x80), r)
        else none
      | _ => none

/-- Fuelled UTF-8 decoding loop; each step consumes at least one byte, so
fuel equal to the byte count always suffices. -/
def utf8DecodeAux : Nat → List Nat → Option (List Nat)
  | _, [] => some []
  | 0, _ :: _ => none
  | fuel + 1, b :: rest =>
    match utf8DecodeOne (b :: rest) with
    | none => none
    | some (c, r) => (utf8DecodeAux fuel r).map (c :: ·)

/-- UTF-8 decoding of a whole byte list. -/
def utf8Decode (l : List Nat) : Option (List Nat) :=
  utf8DecodeAux l.length l

theorem utf8EncodeChar_ne_nil (c : Nat) : utf8EncodeChar c ≠ [] := by
  unfold utf8EncodeChar
  split_ifs <;> simp

theorem utf8EncodeChar_length_le (c : Nat) : (utf8EncodeChar c).length ≤ 4 := by
  unfold utf8EncodeChar
  split_ifs <;> simp

theorem utf8DecodeOne_encodeChar (c : Nat) (hc : c < 0x110000) (tail : List Nat) :
    utf8DecodeOne (utf8EncodeChar c ++ tail) = some (c, tail) := by
  unfold utf8EncodeChar
  split_ifs with h1 h2 h3
  · simp only [List.cons_append, List.nil_append, utf8DecodeOne]
    rw [if_pos h1]
  · simp only [List.cons_append, List.nil_append, utf8DecodeOne]
    rw [if_neg (by omega), if_neg (by omega), if_pos (by omega),
      if_pos (by constructor <;> omega)]
    have hv : (0xC0 + c / 64 - 0xC0) * 64 + (0x80 + c % 64 - 0x80) = c := by omega
    rw [hv]
  · simp only [List.cons_append, List.nil_append, utf8DecodeOne]
    rw [if_neg (by omega), if_neg (by omega), if_neg (by omega),
      if_pos (by omega), if_pos (by refine ⟨⟨?_, ?_⟩, ?_, ?_⟩ <;> omega)]
    have hv : (0xE0 + c / 4096 - 0xE0) * 4096 + (0x80 + c / 64 % 64 - 0x80) * 64 +
        (0x80 + c % 64 - 0x80) = c := by omega
    rw [hv]
  · simp only [List.cons_append, List.nil_append, utf8DecodeOne]
    rw [if_neg (by omega), if_neg (by omega), if_neg (by omega),
      if_neg (by omega), if_pos (by refine ⟨⟨?_, ?_⟩, ⟨?_, ?_⟩, ?_, ?_⟩ <;> omega)]
    have hv : (0xF0 + c / 262144 - 0xF0) * 262144 +
        (0x80 + c / 4096 % 64 - 0x80) * 4096 +
        (0x80 + c / 64 % 64 - 0x80) * 64 + (0x80 + c % 64 - 0x80) = c := by omega
    rw [hv]

theorem utf8DecodeAux_encode : ∀ (fuel : Nat) (s : List Nat),
    (utf8Encode s).length ≤ fuel → (∀ c ∈ s, c < 0x110000) →
    utf8DecodeAux fuel (utf8Encode s) = some s
  | fuel, [], _, _ => by cases fuel <;> rfl
  | fuel, c :: rest, hlen, h => by
    have hc : c < 0x110000 := h c (by simp)
    have henc : utf8Encode (c :: rest) = utf8EncodeChar c ++ utf8Encode rest := rfl
    obtain ⟨b, t, hbt⟩ : ∃ b t, utf8EncodeChar c = b :: t := by
      cases hE : utf8EncodeChar c with
      | nil => exact absurd hE (utf8EncodeChar_ne_nil c)
      | cons b t => exact ⟨b, t, rfl⟩
    have hfuel : 1 ≤ fuel := by
      rw [henc, List.length_append, hbt] at hlen
      simp at hlen
      omega
    obtain ⟨fuel', rfl⟩ : ∃ f, fuel = f + 1 := ⟨fuel - 1, by omega⟩
    have hlen' : (utf8Encode rest).length ≤ fuel' := by
      rw [henc, List.length_append, hbt] at hlen
      simp at hlen
      omega
    rw [henc, hbt, List.cons_append, utf8DecodeAux]
    rw [show (b :: (t ++ utf8Encode rest)) = utf8EncodeChar c ++ utf8Encode rest by
      rw [hbt, List.cons_append]]
    rw [utf8DecodeOne_encodeChar c hc]
    show Option.map (fun x => c :: x) (utf8DecodeAux fuel' (utf8Encode rest)) =
      some (c :: rest)
    rw [utf8DecodeAux_encode fuel' rest hlen' (fun x hx => h x (by simp [hx]))]
    rfl

/-- Decoding inverts encoding on any sequence of Unicode scalar values. -/
theorem utf8_roundtrip (s : List Nat) (h : ∀ c ∈ s, c < 0x110000) :
    utf8Decode (utf8Encode s) = some s :=
  utf8DecodeAux_encode (utf8Encode s).length s le_rfl h

namespace BlockTalkMessenger

/-- The Message struct of BlockTalkMessenger.sol. -/
structure Message where
  sender : Nat
  recipient : Nat
  encryptedContent : String
  timestamp : Nat
  isPermanent : Bool
  deriving DecidableEq, Repr

/-- The zero-initialised Message a Solidity mapping returns for an
absent key. -/
def zeroMessage : Message :=
  { sender := 0, recipient := 0, encryptedContent := "", timestamp := 0,
    isPermanent := false }

/-- The custom errors of BlockTalkMessenger.sol. -/
inductive SolError where
  | NotRegistered (user : Nat)
  | RecipientNotRegistered (recipient : Nat)
  | InsufficientFee (required provided : Nat)
  | MessageNotFound (messageId : Nat)
  | UnauthorizedAccess (user messageId : Nat)
  deriving DecidableEq, Repr

/-- The events of BlockTalkMessenger.sol. -/
inductive Event where
  | PublicKeyRegistered (user publicKey : Nat)
  | ConversationMessage (conversationHash sender recipient : Nat)
      (encryptedContent : String) (timestamp : Nat) (isPermanent : Bool)
      (messageId : Nat)
  | PermanentMessageStored (messageId sender recipient : Nat)
  deriving DecidableEq, Repr

/-- The contract storage: the mappings and counters of
BlockTalkMessenger.sol, each mapping modelled as a total function with
the zero default Solidity gives absent keys. -/
structure ContractState where
  messagingPublicKeys : Nat → Nat
  permanentMessages : Nat → Message
  userPermanentMessages : Nat → List Nat
  messageCounter : Nat
  permanentMessageFee : Nat

/-- The packed byte encoding of an address argument,
abi.encodePacked(address): 20 big-endian bytes of the uint160 value. -/
def addressBytes (a : Nat) : List Nat := beDigits 256 20 a

/-- The deterministic conversation hash computed inside sendMessage
(lines 84-87): smaller address first, then keccak256 of the two packed
addresses. -/
def conversationHash (keccak : List Nat → Nat) (sender recipient : Nat) : Nat :=
  if recipient < sender then keccak (addressBytes recipient ++ addressBytes sender)
  else keccak (addressBytes sender ++ addressBytes recipient)

/-- registerPublicKey: unconditional overwrite of the caller's key, plus
the PublicKeyRegistered event. -/
def registerPublicKey (st : ContractState) (caller publicKey : Nat) :
    ContractState × Event :=
  ({ st with messagingPublicKeys :=
      Function.update st.messagingPublicKeys caller publicKey },
   Event.PublicKeyRegistered caller publicKey)

/-- getPublicKey view. -/
def getPublicKey (st : ContractState) (user : Nat) : Nat :=
  st.messagingPublicKeys user

/-- isRegistered view: key material is non-zero. -/
def isRegistered (st : ContractState) (user : Nat) : Bool :=
  st.messagingPublicKeys user != 0

/-- sendMessage. A revert is an error result; callers observe the
pre-state in that case (sendMessageRun). The keccak256 hash is an
abstract parameter applied to the exact abi.encodePacked byte layouts
of the source. -/
def sendMessage (keccak : List Nat → Nat) (st : ContractState)
    (sender recipient : Nat) (encryptedContent : String)
    (makePermanent : Bool) (value timestamp : Nat) :
    Except SolError (ContractState × List Event) :=
  if st.messagingPublicKeys sender = 0 then
    .error (.NotRegistered sender)
  else if st.messagingPublicKeys recipient = 0 then
    .error (.RecipientNotRegistered recipient)
  else if makePermanent ∧ value < st.permanentMessageFee then
    .error (.InsufficientFee st.permanentMessageFee value)
  else
    let messageId := keccak (addressBytes sender ++ addressBytes recipient ++
      utf8Encode (encryptedContent.data.map Char.toNat) ++
      beDigits 256 32 timestamp ++ beDigits 256 32 st.messageCounter)
    let convHash := conversationHash keccak sender recipient
    let st1 := { st with messageCounter := st.messageCounter + 1 }
    let ev := Event.ConversationMessage convHash sender recipient
      encryptedContent timestamp makePermanent messageId
    if makePermanent then
      let m : Message := ⟨sender, recipient, encryptedContent, timestamp, true⟩
      let upm1 := Function.update st1.userPermanentMessages sender
        (st1.userPermanentMessages sender ++ [messageId])
      let upm2 := Function.update upm1 recipient (upm1 recipient ++ [messageId])
      let st2 := { st1 with
        permanentMessages := Function.update st1.permanentMessages messageId m,
        userPermanentMessages := upm2 }
      .ok (st2, [ev, Event.PermanentMessageStored messageId sender recipient])
    else
      .ok (st1, [ev])

/-- The externally observed effect of a sendMessage transaction: on a
revert the state is unchanged and no events are emitted. -/
def sendMessageRun (keccak : List Nat → Nat) (st : ContractState)
    (sender recipient : Nat) (encryptedContent : String)
    (makePermanent : Bool) (value timestamp : Nat) :
    ContractState × List Event × Option SolError :=
  match sendMessage keccak st sender recipient encryptedContent
      makePermanent value timestamp with
  | .ok (st', evs) => (st', evs, none)
  | .error e => (st, [], some e)

/-- getMessage view with its read-time access control. -/
def getMessage (st : ContractState) (caller messageId : Nat) :
    Except SolError Message :=
  let message := st.permanentMessages messageId
  if message.sender = 0 then .error (.MessageNotFound messageId)
  else if caller ≠ message.sender ∧ caller ≠ message.recipient then
    .error (.UnauthorizedAccess caller messageId)
  else .ok message

/-- getUserPermanentMessages view. -/
def getUserPermanentMessages (st : ContractState) (user : Nat) : List Nat :=
  st.userPermanentMessages user

end BlockTalkMessenger

namespace Frontend

/-- The WebCrypto primitives used by encryption.ts, as abstract functions:
AES-GCM encrypt (key, iv, plaintext bytes to ciphertext-plus-tag bytes),
AES-GCM decrypt (none models the OperationError throw on authentication
failure), and RSA-OAEP decrypt for the legacy payload branch. -/
structure WebCrypto where
  aesGcmEncrypt : List Nat → List Nat → List Nat → List Nat
  aesGcmDecrypt : List Nat → List Nat → List Nat → Option (List Nat)
  rsaOaepDecrypt : List Nat → List Nat → Option (List Nat)

/-- The parsed JSON payload of an encrypted message: the current
scheme carries iv and data fields; the legacy scheme carries recipient
and sender ciphertexts. decryptMessage dispatches on which fields are
present. -/
inductive EncryptedPayload where
  | aes (iv data : List Nat)
  | legacy (recipient sender : List Nat)
  deriving DecidableEq, Repr

/-- The result of deriveEncryptionKeys in encryption.ts; a CryptoKey
imported from raw bytes is identified with those bytes. -/
structure EncryptionKeyPair where
  publicKey : List Nat
  privateKey : List Nat
  publicKeyBytes : List Nat
  deriving DecidableEq, Repr

/-- Uint8Array.prototype.set: overwrite dst from offset with src. -/
def uint8ArraySet (dst src : List Nat) (offset : Nat) : List Nat :=
  dst.take offset ++ src ++ dst.drop (offset + src.length)

/-- deriveEncryptionKeys (encryption.ts lines 56-84), from the point the
wallet signature bytes are in hand: SHA-256 the signature, use the digest
as the raw AES-GCM key, and assemble publicKeyBytes by copying the two
16-byte halves of the digest into a fresh 32-byte array. -/
def deriveEncryptionKeys (sha256 : List Nat → List Nat)
    (signatureBytes : List Nat) : EncryptionKeyPair :=
  let seed := sha256 signatureBytes
  let privateKeyBytes := seed
  let publicKeyBytes0 := List.replicate 32 0
  let publicKeyBytes1 := uint8ArraySet publicKeyBytes0 (privateKeyBytes.take 16) 0
  let publicKeyBytes2 :=
    uint8ArraySet publicKeyBytes1 ((privateKeyBytes.drop 16).take 16) 16
  { publicKey := privateKeyBytes, privateKey := privateKeyBytes,
    publicKeyBytes := publicKeyBytes2 }

/-- encryptMessage (encryption.ts lines 90-141): import the recipient key
bytes as an AES-GCM key, UTF-8 encode the message, encrypt under a fresh
random iv (a parameter here, since randomness is external), and emit the
iv-plus-data payload. -/
def encryptMessage (W : WebCrypto) (message : List Nat)
    (recipientPublicKeyBytes iv : List Nat) : EncryptedPayload :=
  EncryptedPayload.aes iv
    (W.aesGcmEncrypt recipientPublicKeyBytes iv (utf8Encode message))

/-- decryptMessage (encryption.ts lines 143-188) on the parsed payload:
the iv-and-data shape selects AES-GCM, otherwise the legacy RSA path
picks the recipient or sender ciphertext; any failure surfaces as the
single DecryptionFailed error, modelled as none. -/
def decryptMessage (W : WebCrypto) (payload : EncryptedPayload)
    (privateKey : List Nat) (isRecipient : Bool) : Option (List Nat) :=
  match payload with
  | .aes iv data => (W.aesGcmDecrypt privateKey iv data).bind utf8Decode
  | .legacy recipient sender =>
    (W.rsaOaepDecrypt privateKey (if isRecipient then recipient else sender)).bind
      utf8Decode

/-- createConversationHash (contract.ts lines 640-652) on the character
lists of the two address strings: lowercase both, order by JavaScript
string comparison, parse each ordered address to its 20 bytes and
keccak256 the concatenation. -/
def createConversationHash (keccak : List Nat → Nat)
    (address1 address2 : List Char) : Nat :=
  let addr1 := address1.map toLowerChar
  let addr2 := address2.map toLowerChar
  let ordered := if jsLt addr1 addr2 then (addr1, addr2) else (addr2, addr1)
  let packedData := nibblesToBytes ((ordered.1.drop 2).map hexVal) ++
    nibblesToBytes ((ordered.2.drop 2).map hexVal)
  keccak packedData

/-- The lowercase hex character of one nibble, as Number.prototype.toString
base 16 renders it. -/
def nibbleToChar (d : Nat) : Char :=
  if d < 10 then Char.ofNat (48 + d) else Char.ofNat (87 + d)

/-- The 64 lowercase hex characters viem uses to render a bytes32 value
(the part after the 0x prefix). -/
def bytes32Hex (stored : Nat) : List Char :=
  (beDigits 16 64 stored).map nibbleToChar

/-- The regex replace of /0+$/ with the empty string: drop the maximal
trailing run of zero characters. -/
def trimTrailingZeroChars (l : List Char) : List Char :=
  (l.reverse.dropWhile (· == '0')).reverse

/-- The client getPublicKey (contract.ts lines 467-479) applied to the
bytes32 value the contract read returns: strip the 0x prefix, strip
trailing zero characters, and return null (none) for the empty string. -/
def getPublicKey (stored : Nat) : Option (List Char) :=
  let hex := bytes32Hex stored
  let trimmed := trimTrailingZeroChars hex
  if trimmed = [] then none else some trimmed

/-- The bytes32 argument the client registerPublicKey builds from a hex
string (contract.ts line 403): take at most 64 characters and pad the end
with zero characters to length 64. -/
def registerPublicKeyBytes32 (publicKeyHex : List Char) : List Char :=
  let sliced := publicKeyHex.take 64
  sliced ++ List.replicate (64 - sliced.length) '0'

/-- Modelled from the spec: the hex form of a bytes32 value with its
trailing zero BYTES stripped (section 6: the canonical form strips
trailing zero bytes when converting back to hex). Stated only to compare
against the code's character-wise trimming in getPublicKey. -/
def specTrailingZeroBytesStripped (stored : Nat) : List Char :=
  let bytes := beDigits 256 32 stored
  let trimmedBytes := (bytes.reverse.dropWhile (· == 0)).reverse
  trimmedBytes.foldr (fun b acc => nibbleToChar (b / 16) :: nibbleToChar (b % 16) :: acc) []

end Frontend

/-- A concrete contract state used to instantiate theorems: accounts 1 and 2
are registered with key 7, one permanent message is stored under id 5, and
the permanent-message fee is 5. -/
def exampleState : BlockTalkMessenger.ContractState :=
  { messagingPublicKeys := fun u => if u = 1 ∨ u = 2 then 7 else 0,
    permanentMessages := fun i =>
      if i = 5 then ⟨1, 2, "hi", 11, true⟩ else BlockTalkMessenger.zeroMessage,
    userPermanentMessages := fun _ => [],
    messageCounter := 0,
    permanentMessageFee := 5 }

/-- C9: registerPublicKey always succeeds and stores exactly the submitted
key; last write wins; re-registering the same key leaves the registry state
unchanged; isRegistered holds iff the stored key material is non-zero, so
registering the all-zero value leaves the account unregistered. -/
theorem c9_registry (st : BlockTalkMessenger.ContractState) (caller k1 k2 : Nat) :
    BlockTalkMessenger.getPublicKey
      (BlockTalkMessenger.registerPublicKey st caller k1).1 caller = k1 ∧
    BlockTalkMessenger.getPublicKey
      ((BlockTalkMessenger.registerPublicKey
        (BlockTalkMessenger.registerPublicKey st caller k1).1 caller k2).1) caller = k2 ∧
    (BlockTalkMessenger.registerPublicKey
      (BlockTalkMessenger.registerPublicKey st caller k1).1 caller k1).1 =
      (BlockTalkMessenger.registerPublicKey st caller k1).1 ∧
    (BlockTalkMessenger.isRegistered st caller = true ↔
      BlockTalkMessenger.getPublicKey st caller ≠ 0) ∧
    BlockTalkMessenger.isRegistered
      (BlockTalkMessenger.registerPublicKey st caller 0).1 caller = false := by
  refine ⟨?_, ?_, ?_, ?_, ?_⟩
  · simp [BlockTalkMessenger.getPublicKey, BlockTalkMessenger.registerPublicKey]
  · simp [BlockTalkMessenger.getPublicKey, BlockTalkMessenger.registerPublicKey]
  · simp [BlockTalkMessenger.registerPublicKey, Function.update_idem]
  · simp [BlockTalkMessenger.isRegistered, BlockTalkMessenger.getPublicKey,
      bne_iff_ne]
  · simp [BlockTalkMessenger.isRegistered, BlockTalkMessenger.registerPublicKey]

/-- C8: getMessage fails with MessageNotFound when no permanent record is
stored under the id (the zero-sender sentinel of the Solidity mapping),
fails with UnauthorizedAccess for every caller other than the stored
message's sender or recipient, and returns the stored message exactly when
the caller is its sender or its recipient. -/
theorem c8_getMessage_access (st : BlockTalkMessenger.ContractState)
    (caller messageId : Nat) :
    ((st.permanentMessages messageId).sender = 0 →
      BlockTalkMessenger.getMessage st caller messageId =
        .error (.MessageNotFound messageId)) ∧
    ((st.permanentMessages messageId).sender ≠ 0 →
      caller ≠ (st.permanentMessages messageId).sender →
      caller ≠ (st.permanentMessages messageId).recipient →
      BlockTalkMessenger.getMessage st caller messageId =
        .error (.UnauthorizedAccess caller messageId)) ∧
    ((st.permanentMessages messageId).sender ≠ 0 →
      (caller = (st.permanentMessages messageId).sender ∨
        caller = (st.permanentMessages messageId).recipient) →
      BlockTalkMessenger.getMessage st caller messageId =
        .ok (st.permanentMessages messageId)) := by
  refine ⟨?_, ?_, ?_⟩
  · intro h
    simp only [BlockTalkMessenger.getMessage]
    rw [if_pos h]
  · intro h h1 h2
    simp only [BlockTalkMessenger.getMessage]
    rw [if_neg h, if_pos ⟨h1, h2⟩]
  · intro h hor
    simp only [BlockTalkMessenger.getMessage]
    rw [if_neg h, if_neg (by tauto)]

/-- C8 witness: the three access-control outcomes at concrete inputs in
exampleState. -/
theorem c8_getMessage_access_witness :
    BlockTalkMessenger.getMessage exampleState 9 4 =
      .error (.MessageNotFound 4) ∧
    BlockTalkMessenger.getMessage exampleState 9 5 =
      .error (.UnauthorizedAccess 9 5) ∧
    BlockTalkMessenger.getMessage exampleState 1 5 =
      .ok ⟨1, 2, "hi", 11, true⟩ :=
  ⟨(c8_getMessage_access exampleState 9 4).1 (by decide),
   (c8_getMessage_access exampleState 9 5).2.1 (by decide) (by decide) (by decide),
   (c8_getMessage_access exampleState 1 5).2.2 (by decide) (by decide)⟩

/-- C6: a sendMessage call with makePermanent true and value strictly below
the permanent-message fee, from a registered sender to a registered
recipient, reverts with InsufficientFee carrying the required fee and the
provided value; the observed state is unchanged and no event is emitted. -/
theorem c6_insufficientFee_atomic (keccak : List Nat → Nat)
    (st : BlockTalkMessenger.ContractState) (sender recipient : Nat)
    (content : String) (value ts : Nat)
    (hs : st.messagingPublicKeys sender ≠ 0)
    (hr : st.messagingPublicKeys recipient ≠ 0)
    (hv : value < st.permanentMessageFee) :
    BlockTalkMessenger.sendMessageRun keccak st sender recipient content
      true value ts =
      (st, [], some (.InsufficientFee st.permanentMessageFee value)) := by
  simp only [BlockTalkMessenger.sendMessageRun, BlockTalkMessenger.sendMessage]
  rw [if_neg hs, if_neg hr, if_pos ⟨trivial, hv⟩]

/-- C6 witness: the InsufficientFee revert at a concrete underpaying call. -/
theorem c6_insufficientFee_atomic_witness :
    BlockTalkMessenger.sendMessageRun (fun _ => 0) exampleState 1 2 "hi"
      true 3 0 = (exampleState, [], some (.InsufficientFee 5 3)) :=
  c6_insufficientFee_atomic (fun _ => 0) exampleState 1 2 "hi" 3 0
    (by decide) (by decide) (by decide)

/-- C5 counterexample: it is not the case that every sendMessage call
increments messageCounter; a call that fails the permanence fee check
reverts before the counter is touched and leaves it unchanged. -/
theorem c5_counter_counterexample :
    ¬ (∀ (keccak : List Nat → Nat) (st : BlockTalkMessenger.ContractState)
      (sender recipient : Nat) (content : String) (makePermanent : Bool)
      (value ts : Nat),
      (BlockTalkMessenger.sendMessageRun keccak st sender recipient content
        makePermanent value ts).1.messageCounter = st.messageCounter + 1) := by
  intro h
  have h2 := h (fun _ => 0) exampleState 1 2 "hi" true 0 0
  rw [c6_insufficientFee_atomic (fun _ => 0) exampleState 1 2 "hi" 0 0
    (by decide) (by decide) (by decide)] at h2
  simp [exampleState] at h2

/-- C5 amended: messageCounter is incremented by exactly one on every call
that passes all three validation checks, and any reverting call (in
particular one failing the permanence fee check) leaves messageCounter
unchanged. -/
theorem c5_counter_amended (keccak : List Nat → Nat)
    (st : BlockTalkMessenger.ContractState) (sender recipient : Nat)
    (content : String) (makePermanent : Bool) (value ts : Nat) :
    ((BlockTalkMessenger.sendMessageRun keccak st sender recipient content
        makePermanent value ts).2.2 = none →
      (BlockTalkMessenger.sendMessageRun keccak st sender recipient content
        makePermanent value ts).1.messageCounter = st.messageCounter + 1) ∧
    ((BlockTalkMessenger.sendMessageRun keccak st sender recipient content
        makePermanent value ts).2.2 ≠ none →
      (BlockTalkMessenger.sendMessageRun keccak st sender recipient content
        makePermanent value ts).1.messageCounter = st.messageCounter) := by
  simp only [BlockTalkMessenger.sendMessageRun, BlockTalkMessenger.sendMessage]
  split_ifs <;> simp

/-- C5 amended witness: a successful call advances the counter from 0 to 1. -/
theorem c5_counter_amended_witness :
    (BlockTalkMessenger.sendMessageRun (fun _ => 0) exampleState 1 2 "hi"
      false 0 0).1.messageCounter = exampleState.messageCounter + 1 :=
  (c5_counter_amended (fun _ => 0) exampleState 1 2 "hi" false 0 0).1 (by decide)

/-- C4: deriveEncryptionKeys returns publicKeyBytes equal byte for byte to
the SHA-256 digest it uses as the raw AES private key, and its publicKey
and privateKey are the same AES-GCM key object. -/
theorem c4_derived_keys (sha256 : List Nat → List Nat)
    (signatureBytes : List Nat) (h : (sha256 signatureBytes).length = 32) :
    (Frontend.deriveEncryptionKeys sha256 signatureBytes).publicKeyBytes =
      sha256 signatureBytes ∧
    (Frontend.deriveEncryptionKeys sha256 signatureBytes).publicKey =
      (Frontend.deriveEncryptionKeys sha256 signatureBytes).privateKey := by
  constructor
  · set p := sha256 signatureBytes with hp
    have htake : (List.take 16 p).length = 16 := by
      rw [List.length_take]; omega
    have hdroptake : List.take 16 (List.drop 16 p) = List.drop 16 p := by
      apply List.take_of_length_le
      rw [List.length_drop]; omega
    simp only [Frontend.deriveEncryptionKeys, Frontend.uint8ArraySet, ← hp,
      List.take_zero, List.nil_append, htake, hdroptake, List.length_drop, h,
      Nat.zero_add]
    have e1 : List.drop 16 (List.replicate 32 (0 : Nat)) = List.replicate 16 0 := by
      simp [List.drop_replicate]
    rw [e1]
    have e2 : List.take 16 (List.take 16 p ++ List.replicate 16 (0 : Nat)) =
        List.take 16 p := by
      rw [List.take_append_of_le_length (by omega), List.take_take]
      simp
    have e3 : List.drop (16 + (32 - 16)) (List.take 16 p ++ List.replicate 16 (0 : Nat)) =
        [] := by
      apply List.drop_eq_nil_of_le
      rw [List.length_append, htake, List.length_replicate]
    rw [e2, e3, List.append_nil, List.take_append_drop]
  · rfl

/-- C4 witness: a digest function returning a 32-byte list satisfies the
length hypothesis and the conclusion at the empty signature. -/
theorem c4_derived_keys_witness :
    ((fun _ : List Nat => List.range 32) []).length = 32 ∧
    ((Frontend.deriveEncryptionKeys (fun _ => List.range 32) []).publicKeyBytes =
      (fun _ : List Nat => List.range 32) [] ∧
    (Frontend.deriveEncryptionKeys (fun _ => List.range 32) []).publicKey =
      (Frontend.deriveEncryptionKeys (fun _ => List.range 32) []).privateKey) :=
  ⟨by simp, c4_derived_keys (fun _ => List.range 32) [] (by simp)⟩

/-- C3: both conversation identifiers are symmetric in their two
arguments - the on-ledger conversation hash computed inside sendMessage
and the client createConversationHash. -/
theorem c3_conversation_symmetric (keccak : List Nat → Nat) (a b : Nat)
    (s t : List Char) :
    BlockTalkMessenger.conversationHash keccak a b =
      BlockTalkMessenger.conversationHash keccak b a ∧
    Frontend.createConversationHash keccak s t =
      Frontend.createConversationHash keccak t s := by
  constructor
  · unfold BlockTalkMessenger.conversationHash
    rcases Nat.lt_trichotomy a b with h | h | h
    · rw [if_neg (by omega), if_pos h]
    · subst h; rfl
    · rw [if_pos h, if_neg (by omega)]
  · unfold Frontend.createConversationHash
    cases h1 : jsLt (s.map toLowerChar) (t.map toLowerChar) <;>
      cases h2 : jsLt (t.map toLowerChar) (s.map toLowerChar)
    · have heq := jsLt_eq_of_not _ _ h1 h2
      simp only [h1, h2, heq, Bool.false_eq_true, if_false]
    · simp only [h1, h2, Bool.false_eq_true, if_false, if_true]
    · simp only [h1, h2, Bool.false_eq_true, if_false, if_true]
    · have := jsLt_asymm _ _ h1
      rw [this] at h2
      exact absurd h2 (by simp)

/-- C1: for any keccak256 function, the client createConversationHash
applied to two hex address strings (in any letter case) feeds keccak the
same packed byte layout, with the same smaller-address-first ordering,
as the conversationHash computed inside sendMessage on the corresponding
uint160 values - so the two 32-byte hashes coincide. The hypotheses say
the lowercased strings are 0x-prefixed 40-digit hex renderings of a
and b. -/
theorem c1_conversationHash_refinement (keccak : List Nat → Nat)
    (a b : Nat) (s t ds es : List Char)
    (hs : s.map toLowerChar = '0' :: 'x' :: ds)
    (hs40 : ds.length = 40)
    (hsh : ∀ c ∈ ds, IsLowerHex c)
    (hsa : radixVal 16 (ds.map hexVal) = a)
    (ht : t.map toLowerChar = '0' :: 'x' :: es)
    (ht40 : es.length = 40)
    (hth : ∀ c ∈ es, IsLowerHex c)
    (htb : radixVal 16 (es.map hexVal) = b) :
    Frontend.createConversationHash keccak s t =
      BlockTalkMessenger.conversationHash keccak a b := by
  have hiff : jsLt ds es = true ↔ a < b := by
    have h0 := jsLt_iff_lt ds es (by omega) hsh hth
    rw [hsa, htb] at h0
    exact h0
  have hpackS : nibblesToBytes (ds.map hexVal) = beDigits 256 20 a := by
    rw [← hsa]
    exact nibblesToBytes_eq_beDigits 20 (ds.map hexVal)
      (by rw [List.length_map, hs40])
      (fun d hd => by
        rcases List.mem_map.mp hd with ⟨c, hc, rfl⟩
        exact hexVal_lt_16 (hsh c hc))
  have hpackT : nibblesToBytes (es.map hexVal) = beDigits 256 20 b := by
    rw [← htb]
    exact nibblesToBytes_eq_beDigits 20 (es.map hexVal)
      (by rw [List.length_map, ht40])
      (fun d hd => by
        rcases List.mem_map.mp hd with ⟨c, hc, rfl⟩
        exact hexVal_lt_16 (hth c hc))
  simp only [Frontend.createConversationHash]
  rw [hs, ht, jsLt_cons_same, jsLt_cons_same]
  unfold BlockTalkMessenger.conversationHash BlockTalkMessenger.addressBytes
  rcases Nat.lt_trichotomy a b with hab | hab | hab
  · rw [if_pos (hiff.mpr hab)]
    simp only [List.drop_succ_cons, List.drop_zero]
    rw [hpackS, hpackT, if_neg (by omega)]
  · have hf : ¬ jsLt ds es = true := fun hh => by
      have := hiff.mp hh; omega
    rw [if_neg hf]
    simp only [List.drop_succ_cons, List.drop_zero]
    rw [hpackS, hpackT, if_neg (by omega)]
    rw [hab]
  · have hf : ¬ jsLt ds es = true := fun hh => by
      have := hiff.mp hh; omega
    rw [if_neg hf]
    simp only [List.drop_succ_cons, List.drop_zero]
    rw [hpackS, hpackT, if_pos hab]

/-- C1 witness: a concrete mixed-case address pair; the client hash of the
strings equals the on-ledger hash of the values 0xab and 0x03. -/
theorem c1_conversationHash_refinement_witness :
    Frontend.createConversationHash (fun l => radixVal 256 l)
      ("0x00000000000000000000000000000000000000Ab".data)
      ("0x0000000000000000000000000000000000000003".data) =
      BlockTalkMessenger.conversationHash (fun l => radixVal 256 l) 171 3 :=
  c1_conversationHash_refinement (fun l => radixVal 256 l) 171 3
    ("0x00000000000000000000000000000000000000Ab".data)
    ("0x0000000000000000000000000000000000000003".data)
    ("00000000000000000000000000000000000000ab".data)
    ("0000000000000000000000000000000000000003".data)
    (by decide) (by decide) (by decide) (by decide)
    (by decide) (by decide) (by decide) (by decide)

/-- C2: decryptMessage applied with the same key material to the payload
encryptMessage produced (parsed as its iv-and-data fields) returns the
original plaintext, for every plaintext of Unicode scalar values and every
key under which AES-GCM decryption inverts encryption at the used point. -/
theorem c2_encrypt_decrypt_roundtrip (W : Frontend.WebCrypto)
    (key iv message : List Nat)
    (hmsg : ∀ c ∈ message, c < 0x110000)
    (haes : W.aesGcmDecrypt key iv (W.aesGcmEncrypt key iv (utf8Encode message)) =
      some (utf8Encode message)) :
    Frontend.decryptMessage W (Frontend.encryptMessage W message key iv) key true =
      some message := by
  simp only [Frontend.encryptMessage, Frontend.decryptMessage]
  rw [haes, Option.some_bind, utf8_roundtrip message hmsg]

/-- C2 witness: with an identity cipher the roundtrip returns the plaintext
at a concrete message. -/
theorem c2_encrypt_decrypt_roundtrip_witness :
    Frontend.decryptMessage
      ⟨fun _ _ m => m, fun _ _ c => some c, fun _ _ => none⟩
      (Frontend.encryptMessage
        ⟨fun _ _ m => m, fun _ _ c => some c, fun _ _ => none⟩
        [104, 105] [7] [1, 2]) [7] true = some [104, 105] :=
  c2_encrypt_decrypt_roundtrip
    ⟨fun _ _ m => m, fun _ _ c => some c, fun _ _ => none⟩
    [7] [1, 2] [104, 105] (by decide) rfl

/-- C7: decryptMessage with a key under which AES-GCM authentication
rejects the ciphertext fails (DecryptionFailed, modelled as none), both
for a payload produced by encryptMessage under a different key and for a
tampered or truncated payload, and the two failures are the same
observable outcome. -/
theorem c7_wrong_key_fails (W : Frontend.WebCrypto)
    (key1 key2 iv tiv message tampered : List Nat)
    (hwrong : W.aesGcmDecrypt key2 iv
      (W.aesGcmEncrypt key1 iv (utf8Encode message)) = none)
    (htampered : W.aesGcmDecrypt key2 tiv tampered = none) :
    Frontend.decryptMessage W (Frontend.encryptMessage W message key1 iv)
      key2 true = none ∧
    Frontend.decryptMessage W (Frontend.EncryptedPayload.aes tiv tampered)
      key2 true =
      Frontend.decryptMessage W (Frontend.encryptMessage W message key1 iv)
        key2 true := by
  simp only [Frontend.encryptMessage, Frontend.decryptMessage]
  rw [hwrong, htampered]
  exact ⟨rfl, rfl⟩

/-- C7 witness: a cipher whose decryption rejects everything realises both
hypotheses at concrete inputs. -/
theorem c7_wrong_key_fails_witness :
    Frontend.decryptMessage ⟨fun _ _ m => m, fun _ _ _ => none, fun _ _ => none⟩
      (Frontend.encryptMessage
        ⟨fun _ _ m => m, fun _ _ _ => none, fun _ _ => none⟩
        [104] [1] [9]) [2] true = none ∧
    Frontend.decryptMessage ⟨fun _ _ m => m, fun _ _ _ => none, fun _ _ => none⟩
      (Frontend.EncryptedPayload.aes [9] [0]) [2] true =
      Frontend.decryptMessage ⟨fun _ _ m => m, fun _ _ _ => none, fun _ _ => none⟩
        (Frontend.encryptMessage
          ⟨fun _ _ m => m, fun _ _ _ => none, fun _ _ => none⟩
          [104] [1] [9]) [2] true :=
  c7_wrong_key_fails ⟨fun _ _ m => m, fun _ _ _ => none, fun _ _ => none⟩
    [1] [2] [9] [9] [104] [0] rfl rfl

theorem trim_append_replicate (l : List Char) :
    Frontend.trimTrailingZeroChars l ++
      List.replicate (l.length - (Frontend.trimTrailingZeroChars l).length) '0' = l := by
  unfold Frontend.trimTrailingZeroChars
  have hsplit : l.reverse.takeWhile (· == '0') ++ l.reverse.dropWhile (· == '0') =
      l.reverse := List.takeWhile_append_dropWhile (fun x => x == '0') l.reverse
  have htw : l.reverse.takeWhile (· == '0') =
      List.replicate (l.reverse.takeWhile (· == '0')).length '0' := by
    apply List.eq_replicate_of_mem
    intro b hb
    have hb2 := List.mem_takeWhile_imp (p := fun x => x == '0') hb
    exact eq_of_beq hb2
  have hl : l = (l.reverse.dropWhile (· == '0')).reverse ++
      List.replicate (l.reverse.takeWhile (· == '0')).length '0' := by
    conv_lhs => rw [← List.reverse_reverse l, ← hsplit]
    rw [List.reverse_append]
    conv_lhs => rw [htw]
    rw [List.reverse_replicate]
  have hcount : l.length - ((l.reverse.dropWhile (· == '0')).reverse).length =
      (l.reverse.takeWhile (· == '0')).length := by
    have := congrArg List.length hl
    rw [List.length_append, List.length_replicate] at this
    omega
  rw [hcount]
  exact hl.symm

theorem trim_eq_nil_iff (l : List Char) :
    Frontend.trimTrailingZeroChars l = [] ↔ ∀ c ∈ l, c = '0' := by
  unfold Frontend.trimTrailingZeroChars
  rw [List.reverse_eq_nil_iff, List.dropWhile_eq_nil_iff]
  constructor
  · intro h c hc
    exact eq_of_beq (h c (List.mem_reverse.mpr hc))
  · intro h c hc
    exact beq_iff_eq.mpr (h c (List.mem_reverse.mp hc))

theorem trim_length_le (l : List Char) :
    (Frontend.trimTrailingZeroChars l).length ≤ l.length := by
  unfold Frontend.trimTrailingZeroChars
  rw [List.length_reverse]
  calc (l.reverse.dropWhile (· == '0')).length ≤ l.reverse.length :=
        (List.dropWhile_sublist _).length_le
    _ = l.length := List.length_reverse l

theorem bytes32Hex_length (stored : Nat) :
    (Frontend.bytes32Hex stored).length = 64 := by
  unfold Frontend.bytes32Hex
  rw [List.length_map, beDigits_length]

theorem nibbleToChar_eq_zero_iff :
    ∀ d, d < 16 → (Frontend.nibbleToChar d = '0' ↔ d = 0) := by decide

theorem bytes32Hex_zero : Frontend.bytes32Hex 0 = List.replicate 64 '0' := by
  unfold Frontend.bytes32Hex
  rw [beDigits_zero, List.map_replicate]
  rfl

/-- C10 counterexample: for the stored bytes32 whose first byte is 0x10
(value 16 * 2 ^ 248), the client getPublicKey returns the single
character 1, while stripping trailing zero BYTES as the claim describes
would return the two characters 1 and 0 - the code strips trailing zero
hex characters, not bytes. -/
theorem c10_getPublicKey_counterexample :
    Frontend.getPublicKey (16 * 2 ^ 248) = some ['1'] ∧
    Frontend.specTrailingZeroBytesStripped (16 * 2 ^ 248) = ['1', '0'] ∧
    Frontend.getPublicKey (16 * 2 ^ 248) ≠
      some (Frontend.specTrailingZeroBytesStripped (16 * 2 ^ 248)) := by
  refine ⟨by decide, by decide, by decide⟩

/-- C10 amended: for a stored bytes32 value, the client getPublicKey
returns null exactly when the value is zero, and otherwise returns the
non-empty lowercase hex string obtained by stripping the trailing zero
hex characters (nibbles, not bytes); re-padding the returned string with
trailing zero characters to 64 digits - exactly what the client
registerPublicKey does - recovers the full 64-digit hex rendering of the
stored 32-byte value. -/
theorem c10_getPublicKey_amended (stored : Nat) (h : stored < 2 ^ 256) :
    (stored = 0 → Frontend.getPublicKey stored = none) ∧
    (stored ≠ 0 → ∃ t, Frontend.getPublicKey stored = some t ∧ t ≠ [] ∧
      Frontend.registerPublicKeyBytes32 t = Frontend.bytes32Hex stored) := by
  constructor
  · rintro rfl
    simp only [Frontend.getPublicKey, bytes32Hex_zero]
    rw [if_pos]
    exact (trim_eq_nil_iff _).mpr (fun c hc => List.eq_of_mem_replicate hc)
  · intro hne
    have htne : Frontend.trimTrailingZeroChars (Frontend.bytes32Hex stored) ≠ [] := by
      intro h0
      have hall := (trim_eq_nil_iff _).mp h0
      have hdig : ∀ d ∈ beDigits 16 64 stored, d = 0 := by
        intro d hd
        have hd16 : d < 16 := beDigits_lt 16 64 (by norm_num) stored d hd
        have hchar : Frontend.nibbleToChar d ∈ Frontend.bytes32Hex stored :=
          List.mem_map_of_mem _ hd
        exact (nibbleToChar_eq_zero_iff d hd16).mp (hall _ hchar)
      have hrep : beDigits 16 64 stored = List.replicate 64 0 := by
        have h1 := List.eq_replicate_of_mem hdig
        rwa [beDigits_length] at h1
      have hv := radixVal_beDigits 16 64 (by norm_num) stored
      rw [hrep, radixVal_replicate_zero] at hv
      have hpow : (16 : Nat) ^ 64 = 2 ^ 256 := by
        rw [show (16 : Nat) = 2 ^ 4 by norm_num, ← pow_mul]
      have hlt : stored < 16 ^ 64 := by omega
      rw [Nat.mod_eq_of_lt hlt] at hv
      exact hne hv.symm
    refine ⟨Frontend.trimTrailingZeroChars (Frontend.bytes32Hex stored), ?_, htne, ?_⟩
    · simp only [Frontend.getPublicKey]
      rw [if_neg htne]
    · have hle : (Frontend.trimTrailingZeroChars (Frontend.bytes32Hex stored)).length ≤ 64 := by
        have := trim_length_le (Frontend.bytes32Hex stored)
        rwa [bytes32Hex_length] at this
      simp only [Frontend.registerPublicKeyBytes32]
      rw [List.take_of_length_le hle]
      have := trim_append_replicate (Frontend.bytes32Hex stored)
      rwa [bytes32Hex_length] at this

/-- C10 amended witness: the amended statement instantiated at the stored
value 3. -/
theorem c10_getPublicKey_amended_witness :
    (3 : Nat) < 2 ^ 256 ∧
    ((3 = 0 → Frontend.getPublicKey 3 = none) ∧
     ((3 : Nat) ≠ 0 → ∃ t, Frontend.getPublicKey 3 = some t ∧ t ≠ [] ∧
       Frontend.registerPublicKeyBytes32 t = Frontend.bytes32Hex 3)) :=
  ⟨by norm_num, c10_getPublicKey_amended 3 (by norm_num)⟩
